import Mathlib

/-!
Verification of the `android-view` repository (Rust): a shallow embedding of
the index-conversion algorithms, cursor-blink state machine, accessibility
dispatch, input-connection `commit_text`, and the view-peer handle registry,
together with theorems settling the specified properties.

Embedding conventions:
* Rust `&str` text buffers are `List Char` (the sequence of Unicode scalar
  values produced by `str::chars()`).
* Rust `usize` counters that only grow by small increments are `Nat`.
* `jlong` / `AtomicI64` values are `Int` with explicit two's-complement
  wrapping at 64 bits where the source can overflow.
* `std::time::Instant` is a `Nat` (milliseconds); `Duration` fields are `Nat`
  milliseconds, which is exact for the 500 ms period used by the source.
* Fallible operations (`unwrap` panics) are modelled with `Option`.
-/

namespace AndroidView

/-! ## Character widths

`char::len_utf8` and `char::len_utf16` from the Rust standard library,
used by the conversion loops in `demo/src/text.rs`. -/

/-- Rust `char::len_utf8`: the number of bytes in the UTF-8 encoding of `c`. -/
def lenUtf8 (c : Char) : Nat :=
  if c.val.toNat < 0x80 then 1
  else if c.val.toNat < 0x800 then 2
  else if c.val.toNat < 0x10000 then 3
  else 4

/-- Rust `char::len_utf16`: the number of 16-bit code units in the UTF-16
encoding of `c`. -/
def lenUtf16 (c : Char) : Nat :=
  if c.val.toNat < 0x10000 then 1 else 2

theorem one_le_lenUtf8 (c : Char) : 1 ≤ lenUtf8 c := by
  unfold lenUtf8; split <;> [skip; split] <;> [skip; skip; split] <;> omega

theorem one_le_lenUtf16 (c : Char) : 1 ≤ lenUtf16 c := by
  unfold lenUtf16; split <;> omega

/-! ## Index conversion (`demo/src/text.rs`, `Editor::utf8_to_utf16_index`
and friends)

All four conversion methods share one loop shape: iterate the characters of
`self.editor.raw_text()`, keeping a running length in the source space and a
running length in the destination space; stop as soon as the source-space
running length reaches the requested index; return the destination-space
running length.  `convertAux lenSrc lenDst text target src dst` is that loop
with accumulators `src`/`dst`. -/

def convertAux (lenSrc lenDst : Char → Nat) :
    List Char → Nat → Nat → Nat → Nat
  | [], _, _, dst => dst
  | c :: rest, target, src, dst =>
    if src ≥ target then dst
    else convertAux lenSrc lenDst rest target (src + lenSrc c) (dst + lenDst c)

/-- Model of `Editor::utf8_to_utf16_index` (`demo/src/text.rs:78`): `text` stands for
`self.editor.raw_text()`. -/
def utf8_to_utf16_index (text : List Char) (utf8_index : Nat) : Nat :=
  convertAux lenUtf8 lenUtf16 text utf8_index 0 0

/-- Model of `Editor::utf16_to_utf8_index` (`demo/src/text.rs:91`). -/
def utf16_to_utf8_index (text : List Char) (utf16_index : Nat) : Nat :=
  convertAux lenUtf16 lenUtf8 text utf16_index 0 0

/-- Model of `Editor::utf8_to_usv_index` (`demo/src/text.rs:104`); each char counts 1
in the Unicode-scalar-value space. -/
def utf8_to_usv_index (text : List Char) (utf8_index : Nat) : Nat :=
  convertAux lenUtf8 (fun _ => 1) text utf8_index 0 0

/-- Model of `Editor::usv_to_utf8_index` (`demo/src/text.rs:117`). -/
def usv_to_utf8_index (text : List Char) (usv_index : Nat) : Nat :=
  convertAux (fun _ => 1) lenUtf8 text usv_index 0 0

/-- Total length of `text` in the space measured by `len`. -/
def lenSum (len : Char → Nat) (text : List Char) : Nat :=
  (text.map len).sum

theorem lenSum_nil (len : Char → Nat) : lenSum len [] = 0 := rfl

theorem lenSum_cons (len : Char → Nat) (c : Char) (l : List Char) :
    lenSum len (c :: l) = len c + lenSum len l := by
  simp [lenSum]

theorem lenSum_append (len : Char → Nat) (l₁ l₂ : List Char) :
    lenSum len (l₁ ++ l₂) = lenSum len l₁ + lenSum len l₂ := by
  simp [lenSum]

/-- Predicate: `b` is a valid offset (a scalar boundary) of `text` in the space measured
by `len`: the length of some prefix of `text`. -/
def IsBoundary (len : Char → Nat) (text : List Char) (b : Nat) : Prop :=
  ∃ k, k ≤ text.length ∧ b = lenSum len (text.take k)

instance (len : Char → Nat) (text : List Char) (b : Nat) :
    Decidable (IsBoundary len text b) :=
  decidable_of_iff
    (b ∈ (List.range (text.length + 1)).map fun k => lenSum len (text.take k))
    (by
      simp only [List.mem_map, List.mem_range, Nat.lt_succ_iff, IsBoundary]
      constructor
      · rintro ⟨k, hk, hb⟩; exact ⟨k, hk, hb.symm⟩
      · rintro ⟨k, hk, hb⟩; exact ⟨k, hk, hb.symm⟩)

/-- Valid UTF-8 byte offsets of `text`. -/
def IsUtf8Boundary (text : List Char) (b : Nat) : Prop :=
  IsBoundary lenUtf8 text b

/-- Valid UTF-16 code-unit offsets of `text`. -/
def IsUtf16Boundary (text : List Char) (b : Nat) : Prop :=
  IsBoundary lenUtf16 text b

/-- Valid Unicode-scalar-value offsets of `text`. -/
def IsUsvBoundary (text : List Char) (b : Nat) : Prop :=
  IsBoundary (fun _ => 1) text b

instance (text : List Char) (b : Nat) : Decidable (IsUtf8Boundary text b) := by
  unfold IsUtf8Boundary; infer_instance

instance (text : List Char) (b : Nat) : Decidable (IsUtf16Boundary text b) := by
  unfold IsUtf16Boundary; infer_instance

instance (text : List Char) (b : Nat) : Decidable (IsUsvBoundary text b) := by
  unfold IsUsvBoundary; infer_instance

/-! ### Loop characterization lemmas -/

theorem convertAux_nil (lenSrc lenDst : Char → Nat) (t s d : Nat) :
    convertAux lenSrc lenDst [] t s d = d := rfl

theorem convertAux_cons (lenSrc lenDst : Char → Nat) (c : Char)
    (rest : List Char) (t s d : Nat) :
    convertAux lenSrc lenDst (c :: rest) t s d =
      if s ≥ t then d
      else convertAux lenSrc lenDst rest t (s + lenSrc c) (d + lenDst c) := rfl

theorem convertAux_stop (lenSrc lenDst : Char → Nat) (l : List Char)
    {t s : Nat} (d : Nat) (h : t ≤ s) :
    convertAux lenSrc lenDst l t s d = d := by
  cases l with
  | nil => rfl
  | cons c rest => rw [convertAux_cons, if_pos h]

/-- Running the loop with target exactly the source-space length of a prefix
returns the destination-space length of that prefix. -/
theorem convertAux_exact (lenSrc lenDst : Char → Nat)
    (hpos : ∀ c, 1 ≤ lenSrc c) :
    ∀ (pre suf : List Char) (s d : Nat),
      convertAux lenSrc lenDst (pre ++ suf) (s + lenSum lenSrc pre) s d =
        d + lenSum lenDst pre := by
  intro pre
  induction pre with
  | nil =>
    intro suf s d
    simp only [List.nil_append, lenSum_nil, Nat.add_zero]
    exact convertAux_stop lenSrc lenDst suf d le_rfl
  | cons c pre ih =>
    intro suf s d
    have hc := hpos c
    have hlt : ¬ s ≥ s + lenSum lenSrc (c :: pre) := by
      rw [lenSum_cons]; omega
    rw [List.cons_append, convertAux_cons, if_neg hlt, lenSum_cons,
      show s + (lenSrc c + lenSum lenSrc pre) =
        (s + lenSrc c) + lenSum lenSrc pre by omega,
      ih suf (s + lenSrc c) (d + lenDst c), lenSum_cons]
    omega

theorem convert_exact (lenSrc lenDst : Char → Nat)
    (hpos : ∀ c, 1 ≤ lenSrc c) (pre suf : List Char) :
    convertAux lenSrc lenDst (pre ++ suf) (lenSum lenSrc pre) 0 0 =
      lenSum lenDst pre := by
  have h := convertAux_exact lenSrc lenDst hpos pre suf 0 0
  simpa using h

/-- The destination accumulator only grows. -/
theorem le_convertAux (lenSrc lenDst : Char → Nat) :
    ∀ (l : List Char) (t s d : Nat), d ≤ convertAux lenSrc lenDst l t s d := by
  intro l
  induction l with
  | nil => intro t s d; exact le_rfl
  | cons c rest ih =>
    intro t s d
    by_cases h : s ≥ t
    · simp [convertAux, h]
    · simp only [convertAux, if_neg h]
      exact le_trans (Nat.le_add_right d (lenDst c)) (ih t _ _)

/-- The loop result is monotone in the target index. -/
theorem convertAux_mono (lenSrc lenDst : Char → Nat) :
    ∀ (l : List Char) (t₁ t₂ s d : Nat), t₁ ≤ t₂ →
      convertAux lenSrc lenDst l t₁ s d ≤ convertAux lenSrc lenDst l t₂ s d := by
  intro l
  induction l with
  | nil => intro t₁ t₂ s d _; exact le_rfl
  | cons c rest ih =>
    intro t₁ t₂ s d ht
    by_cases h1 : s ≥ t₁
    · rw [convertAux, if_pos h1]
      exact le_convertAux lenSrc lenDst (c :: rest) t₂ s d
    · have h2 : ¬ s ≥ t₂ := by omega
      rw [convertAux, if_neg h1, convertAux, if_neg h2]
      exact ih t₁ t₂ _ _ ht

/-- Running the loop with a target strictly inside the span of character `c`
(after prefix `pre`) consumes `c` as well: the result is the destination
length of `pre ++ [c]`. -/
theorem convertAux_mid (lenSrc lenDst : Char → Nat) :
    ∀ (pre : List Char) (c : Char) (suf : List Char) (s d t : Nat),
      s + lenSum lenSrc pre < t → t ≤ s + lenSum lenSrc pre + lenSrc c →
      convertAux lenSrc lenDst (pre ++ c :: suf) t s d =
        d + lenSum lenDst pre + lenDst c := by
  intro pre
  induction pre with
  | nil =>
    intro c suf s d t h1 h2
    simp only [lenSum_nil, Nat.add_zero] at h1 h2
    rw [List.nil_append, convertAux_cons, if_neg (by omega : ¬ s ≥ t),
      convertAux_stop lenSrc lenDst suf _ (by omega), lenSum_nil]
    omega
  | cons c' pre ih =>
    intro c suf s d t h1 h2
    rw [lenSum_cons] at h1 h2
    have hs : ¬ s ≥ t := by omega
    rw [List.cons_append, convertAux_cons, if_neg hs,
      ih c suf (s + lenSrc c') (d + lenDst c') t (by omega) (by omega),
      lenSum_cons]
    omega

/-- A target beyond the total source length consumes the whole text. -/
theorem convertAux_over (lenSrc lenDst : Char → Nat) :
    ∀ (l : List Char) (s d t : Nat), s + lenSum lenSrc l < t →
      convertAux lenSrc lenDst l t s d = d + lenSum lenDst l := by
  intro l
  induction l with
  | nil => intro s d t _; simp [convertAux, lenSum_nil]
  | cons c rest ih =>
    intro s d t h
    rw [lenSum_cons] at h
    have hs : ¬ s ≥ t := by omega
    rw [convertAux_cons, if_neg hs,
      ih (s + lenSrc c) (d + lenDst c) t (by omega), lenSum_cons]
    omega

/-! ### Snapping

`snapIndex len text b` runs the same loop with source and destination widths
equal, so it returns the first running source length that reaches `b`: the
least boundary `≥ b`, or the total length when `b` exceeds it.  This is the
boundary whose conversion result the source functions actually return. -/

def snapIndex (len : Char → Nat) (text : List Char) (b : Nat) : Nat :=
  convertAux len len text b 0 0

theorem lenSum_take_le (len : Char → Nat) (text : List Char) (k : Nat) :
    lenSum len (text.take k) ≤ lenSum len text := by
  conv_rhs => rw [← List.take_append_drop k text]
  rw [lenSum_append]
  omega

theorem lenSum_take_mono (len : Char → Nat) (text : List Char)
    {k₁ k₂ : Nat} (h : k₁ ≤ k₂) :
    lenSum len (text.take k₁) ≤ lenSum len (text.take k₂) := by
  have : text.take k₁ = (text.take k₂).take k₁ := by
    rw [List.take_take, Nat.min_eq_left h]
  rw [this]
  exact lenSum_take_le len (text.take k₂) k₁

theorem boundary_total (len : Char → Nat) (text : List Char) :
    IsBoundary len text (lenSum len text) :=
  ⟨text.length, le_rfl, by rw [List.take_length]⟩

theorem boundary_le_total (len : Char → Nat) {text : List Char} {b : Nat}
    (h : IsBoundary len text b) : b ≤ lenSum len text := by
  obtain ⟨k, _, hb⟩ := h
  rw [hb]
  exact lenSum_take_le len text k

/-- A non-boundary index within the text's total length lies strictly inside
the span of some character. -/
theorem exists_mid_decomp (len : Char → Nat) (hpos : ∀ c, 1 ≤ len c) :
    ∀ (text : List Char) (b : Nat), b ≤ lenSum len text →
      ¬ IsBoundary len text b →
      ∃ pre c suf, text = pre ++ c :: suf ∧
        lenSum len pre < b ∧ b ≤ lenSum len pre + len c := by
  intro text
  induction text with
  | nil =>
    intro b hb hnb
    exfalso
    apply hnb
    rw [lenSum_nil] at hb
    exact ⟨0, by omega, by rw [List.take_nil, lenSum_nil]; omega⟩
  | cons c rest ih =>
    intro b hb hnb
    rw [lenSum_cons] at hb
    by_cases hzero : b = 0
    · exact absurd ⟨0, by omega, by simp [hzero, lenSum_nil]⟩ hnb
    by_cases hc : b ≤ len c
    · exact ⟨[], c, rest, rfl, by rw [lenSum_nil]; omega,
        by rw [lenSum_nil]; omega⟩
    · push_neg at hc
      have hnb' : ¬ IsBoundary len rest (b - len c) := by
        rintro ⟨k, hk, hbk⟩
        exact hnb ⟨k + 1, by simpa using hk,
          by rw [List.take_succ_cons, lenSum_cons]; omega⟩
      obtain ⟨pre, c', suf, hdec, h1, h2⟩ :=
        ih (b - len c) (by omega) hnb'
      exact ⟨c :: pre, c', suf, by rw [hdec, List.cons_append],
        by rw [lenSum_cons]; omega, by rw [lenSum_cons]; omega⟩

/-- On a boundary, the snap is the identity. -/
theorem snapIndex_boundary (len : Char → Nat) (hpos : ∀ c, 1 ≤ len c)
    {text : List Char} {b : Nat} (h : IsBoundary len text b) :
    snapIndex len text b = b := by
  obtain ⟨k, hk, hb⟩ := h
  subst hb
  have h2 := convert_exact len len hpos (text.take k) (text.drop k)
  rw [List.take_append_drop] at h2
  exact h2

theorem lenSum_take_succ_append (len : Char → Nat) (pre : List Char)
    (c : Char) (suf : List Char) :
    lenSum len ((pre ++ c :: suf).take (pre.length + 1)) =
      lenSum len pre + len c := by
  rw [List.take_append_eq_append_take, List.take_of_length_le (Nat.le_succ _),
    Nat.add_sub_cancel_left, List.take_succ_cons, List.take_zero,
    lenSum_append, lenSum_cons, lenSum_nil, Nat.add_zero]

/-- Specification of round-up snapping: the last argument is the boundary
the index `b` rounds up to — a boundary, the least boundary not below `b`
when `b` lies within the text, and the total length when `b` exceeds the
text. -/
@[reducible] def RoundsUp (B : Nat → Prop) (total b b' : Nat) : Prop :=
  B b' ∧
    (b ≤ total → b ≤ b' ∧ ∀ b'', B b'' → b ≤ b'' → b' ≤ b'') ∧
    (total < b → b' = total)

/-- The generic rounding-up fact: every conversion loop returns the value it
would return at `snapIndex`, and `snapIndex` is the round-up boundary. -/
theorem convert_rounds_up (lenSrc lenDst : Char → Nat)
    (hpos : ∀ c, 1 ≤ lenSrc c) (text : List Char) (b : Nat) :
    convertAux lenSrc lenDst text b 0 0 =
      convertAux lenSrc lenDst text (snapIndex lenSrc text b) 0 0 ∧
    RoundsUp (IsBoundary lenSrc text) (lenSum lenSrc text) b
      (snapIndex lenSrc text b) := by
  by_cases hb : IsBoundary lenSrc text b
  · rw [snapIndex_boundary lenSrc hpos hb]
    refine ⟨rfl, hb, fun _ => ⟨le_rfl, fun _ _ h => h⟩, fun hlt => ?_⟩
    exact absurd (boundary_le_total lenSrc hb) (by omega)
  · by_cases htot : b ≤ lenSum lenSrc text
    · obtain ⟨pre, c, suf, hdec, h1, h2⟩ :=
        exists_mid_decomp lenSrc hpos text b htot hb
      subst hdec
      have hsnap : snapIndex lenSrc (pre ++ c :: suf) b =
          lenSum lenSrc pre + lenSrc c := by
        have h := convertAux_mid lenSrc lenSrc pre c suf 0 0 b
          (by omega) (by omega)
        unfold snapIndex
        omega
      have hbd : IsBoundary lenSrc (pre ++ c :: suf)
          (lenSum lenSrc pre + lenSrc c) :=
        ⟨pre.length + 1, by simp,
          (lenSum_take_succ_append lenSrc pre c suf).symm⟩
      have hexact : convertAux lenSrc lenDst (pre ++ c :: suf)
          (lenSum lenSrc pre + lenSrc c) 0 0 =
            lenSum lenDst pre + lenDst c := by
        have h := convert_exact lenSrc lenDst hpos (pre ++ [c]) suf
        rw [List.append_assoc, List.singleton_append] at h
        simp only [lenSum_append, lenSum_cons, lenSum_nil, Nat.add_zero] at h
        exact h
      constructor
      · rw [convertAux_mid lenSrc lenDst pre c suf 0 0 b (by omega) (by omega),
          hsnap, hexact]
        omega
      · rw [hsnap]
        refine ⟨hbd, fun _ => ⟨by omega, ?_⟩, fun hlt => by omega⟩
        rintro b'' ⟨k, hk, hb''⟩ hge
        subst hb''
        by_cases hkp : k ≤ pre.length
        · exfalso
          have htk : (pre ++ c :: suf).take k = pre.take k :=
            List.take_append_of_le_length hkp
          have hle : lenSum lenSrc (pre.take k) ≤ lenSum lenSrc pre :=
            lenSum_take_le lenSrc pre k
          rw [htk] at hge
          omega
        · push_neg at hkp
          have hmono := lenSum_take_mono lenSrc (pre ++ c :: suf)
            (show pre.length + 1 ≤ k by omega)
          rw [lenSum_take_succ_append] at hmono
          exact hmono
    · push_neg at htot
      have hsnap : snapIndex lenSrc text b = lenSum lenSrc text := by
        have h := convertAux_over lenSrc lenSrc text 0 0 b (by omega)
        unfold snapIndex
        omega
      have hov := convertAux_over lenSrc lenDst text 0 0 b (by omega)
      have hex := convert_exact lenSrc lenDst hpos text []
      rw [List.append_nil] at hex
      constructor
      · rw [hsnap, hov, hex]
        omega
      · rw [hsnap]
        exact ⟨boundary_total lenSrc text, fun hle => by omega, fun _ => rfl⟩

/-! ## Claim theorems for the index converter -/

/-- Sample character `a`: one UTF-8 byte, one UTF-16 unit. -/
def chA : Char := 'a'

/-- Sample character `é`: two UTF-8 bytes, one UTF-16 unit. -/
def chE : Char := 'é'

/-- Sample character `𝄞` (U+1D11E): four UTF-8 bytes, two UTF-16 units. -/
def chG : Char := '𝄞'

/-- C2: for every text and every byte offset `b` on a UTF-8 scalar boundary
(including `b` equal to the byte length), converting to UTF-16 code units and
back returns `b`, and converting to Unicode-scalar-value counts and back
returns `b`. -/
theorem utf8_index_roundtrip (text : List Char) (b : Nat)
    (h : IsUtf8Boundary text b) :
    utf16_to_utf8_index text (utf8_to_utf16_index text b) = b ∧
      usv_to_utf8_index text (utf8_to_usv_index text b) = b := by
  obtain ⟨k, hk, hb⟩ := h
  subst hb
  have h16 := convert_exact lenUtf8 lenUtf16 one_le_lenUtf8
    (text.take k) (text.drop k)
  have h16' := convert_exact lenUtf16 lenUtf8 one_le_lenUtf16
    (text.take k) (text.drop k)
  have h1 := convert_exact lenUtf8 (fun _ => 1) one_le_lenUtf8
    (text.take k) (text.drop k)
  have h1' := convert_exact (fun _ => 1) lenUtf8 (fun _ => le_rfl)
    (text.take k) (text.drop k)
  rw [List.take_append_drop] at h16 h16' h1 h1'
  exact ⟨by rw [utf8_to_utf16_index, h16, utf16_to_utf8_index, h16'],
    by rw [utf8_to_usv_index, h1, usv_to_utf8_index, h1']⟩

/-- Witness for `utf8_index_roundtrip` at `text = "aé𝄞"`, `b = 3`. -/
theorem utf8_index_roundtrip_witness :
    IsUtf8Boundary [chA, chE, chG] 3 ∧
      utf16_to_utf8_index [chA, chE, chG]
        (utf8_to_utf16_index [chA, chE, chG] 3) = 3 ∧
      usv_to_utf8_index [chA, chE, chG]
        (utf8_to_usv_index [chA, chE, chG] 3) = 3 :=
  ⟨by decide, utf8_index_roundtrip [chA, chE, chG] 3 (by decide)⟩

/-- C8: for valid byte offsets `b₁ < b₂`, the UTF-16 and
Unicode-scalar-value conversions are monotone. -/
theorem utf8_index_monotone (text : List Char) (b₁ b₂ : Nat)
    (h₁ : IsUtf8Boundary text b₁) (h₂ : IsUtf8Boundary text b₂)
    (hlt : b₁ < b₂) :
    utf8_to_utf16_index text b₁ ≤ utf8_to_utf16_index text b₂ ∧
      utf8_to_usv_index text b₁ ≤ utf8_to_usv_index text b₂ :=
  ⟨convertAux_mono lenUtf8 lenUtf16 text b₁ b₂ 0 0 (le_of_lt hlt),
    convertAux_mono lenUtf8 (fun _ => 1) text b₁ b₂ 0 0 (le_of_lt hlt)⟩

/-- Witness for `utf8_index_monotone` at `text = "aé𝄞"`, `b₁ = 1`,
`b₂ = 3`. -/
theorem utf8_index_monotone_witness :
    IsUtf8Boundary [chA, chE, chG] 1 ∧ IsUtf8Boundary [chA, chE, chG] 3 ∧
      1 < 3 ∧
      utf8_to_utf16_index [chA, chE, chG] 1 ≤
        utf8_to_utf16_index [chA, chE, chG] 3 ∧
      utf8_to_usv_index [chA, chE, chG] 1 ≤
        utf8_to_usv_index [chA, chE, chG] 3 :=
  ⟨by decide, by decide, by decide,
    utf8_index_monotone [chA, chE, chG] 1 3 (by decide) (by decide)
      (by decide)⟩

/-- C3 counterexample: on the text `"é"` (one two-byte character), byte index
1 is not a UTF-8 boundary; the greatest boundary not exceeding 1 is 0, yet
`utf8_to_utf16_index` returns a different value at 1 than at 0 — the code
rounds the index up, not down. -/
theorem utf8_to_utf16_rounds_down_counterexample :
    ¬ IsUtf8Boundary [chE] 1 ∧ IsUtf8Boundary [chE] 0 ∧
      (∀ b' ≤ 1, IsUtf8Boundary [chE] b' → b' = 0) ∧
      utf8_to_utf16_index [chE] 1 ≠ utf8_to_utf16_index [chE] 0 := by
  refine ⟨by decide, by decide, ?_, by decide⟩
  decide

/-- C3 (amended): for every text and every index that does not fall on a
boundary of its source space, each conversion function is total (never
panics) and returns the result for the nearest valid boundary rounded *up* —
the least boundary not less than the given index, clamped to the text's
total length when the index exceeds it. -/
theorem conversions_round_up (text : List Char) (b : Nat) :
    (¬ IsUtf8Boundary text b →
      utf8_to_utf16_index text b =
        utf8_to_utf16_index text (snapIndex lenUtf8 text b) ∧
      utf8_to_usv_index text b =
        utf8_to_usv_index text (snapIndex lenUtf8 text b) ∧
      RoundsUp (IsUtf8Boundary text) (lenSum lenUtf8 text) b
        (snapIndex lenUtf8 text b)) ∧
    (¬ IsUtf16Boundary text b →
      utf16_to_utf8_index text b =
        utf16_to_utf8_index text (snapIndex lenUtf16 text b) ∧
      RoundsUp (IsUtf16Boundary text) (lenSum lenUtf16 text) b
        (snapIndex lenUtf16 text b)) ∧
    (¬ IsUsvBoundary text b →
      usv_to_utf8_index text b =
        usv_to_utf8_index text (snapIndex (fun _ => 1) text b) ∧
      RoundsUp (IsUsvBoundary text) (lenSum (fun _ => 1) text) b
        (snapIndex (fun _ => 1) text b)) := by
  refine ⟨fun _ => ?_, fun _ => ?_, fun _ => ?_⟩
  · obtain ⟨e16, r16⟩ :=
      convert_rounds_up lenUtf8 lenUtf16 one_le_lenUtf8 text b
    obtain ⟨e1, _⟩ :=
      convert_rounds_up lenUtf8 (fun _ => 1) one_le_lenUtf8 text b
    exact ⟨e16, e1, r16⟩
  · obtain ⟨e8, r8⟩ :=
      convert_rounds_up lenUtf16 lenUtf8 one_le_lenUtf16 text b
    exact ⟨e8, r8⟩
  · obtain ⟨e8, r8⟩ :=
      convert_rounds_up (fun _ => 1) lenUtf8 (fun _ => le_rfl) text b
    exact ⟨e8, r8⟩

/-- Witness for `conversions_round_up`: `"é"` at non-boundary byte index 1
(snaps up to 2), `"𝄞"` at non-boundary UTF-16 index 1 (snaps up to 2), and
`"a"` at out-of-range scalar index 2 (clamps to 1). -/
theorem conversions_round_up_witness :
    (utf8_to_utf16_index [chE] 1 =
        utf8_to_utf16_index [chE] (snapIndex lenUtf8 [chE] 1) ∧
      snapIndex lenUtf8 [chE] 1 = 2) ∧
    (utf16_to_utf8_index [chG] 1 =
        utf16_to_utf8_index [chG] (snapIndex lenUtf16 [chG] 1) ∧
      snapIndex lenUtf16 [chG] 1 = 2) ∧
    (usv_to_utf8_index [chA] 2 =
        usv_to_utf8_index [chA] (snapIndex (fun _ => 1) [chA] 2) ∧
      snapIndex (fun _ => 1) [chA] 2 = 1) :=
  ⟨⟨((conversions_round_up [chE] 1).1 (by decide)).1, by decide⟩,
    ⟨((conversions_round_up [chG] 1).2.1 (by decide)).1, by decide⟩,
    ⟨((conversions_round_up [chA] 2).2.2 (by decide)).1, by decide⟩⟩

/-! ## Editor blink state machine (`demo/src/text.rs`)

Only the fields the blink/timer claims depend on are modelled: `raw_text`
(the document text inside the wrapped `PlainEditor`), `start_time`,
`blink_period` and `cursor_visible`.  `Instant` is milliseconds as `Nat`
(`Instant::duration_since` saturates at zero, matching `Nat` subtraction);
`Duration` fields are milliseconds, exact for the 500 ms period in use. -/

structure Editor where
  raw_text : List Char
  start_time : Option Nat
  blink_period : Nat
  cursor_visible : Bool
  deriving DecidableEq

/-- Model of `Editor::new` (`demo/src/text.rs:39`): every modelled field other than
the text starts at its `Default::default()` (`None`, zero duration,
`false`). -/
def Editor.new (text : List Char) : Editor :=
  { raw_text := text
    start_time := none
    blink_period := 0
    cursor_visible := false }

/-- Model of `Editor::cursor_reset` (`demo/src/text.rs:130`), with `now` standing for
`Instant::now()`. -/
def Editor.cursor_reset (now : Nat) (e : Editor) : Editor :=
  { e with
    start_time := some now
    blink_period := 500
    cursor_visible := true }

/-- Model of `Editor::disable_blink` (`demo/src/text.rs:137`). -/
def Editor.disable_blink (e : Editor) : Editor :=
  { e with start_time := none }

/-- Model of `Editor::next_blink_time` (`demo/src/text.rs:141`). -/
def Editor.next_blink_time (now : Nat) (e : Editor) : Option Nat :=
  e.start_time.map fun start_time =>
    start_time + ((now - start_time) / e.blink_period + 1) * e.blink_period

/-- Model of `Editor::cursor_blink` (`demo/src/text.rs:153`):
`is_some_and` yields `false` when `start_time` is `None`. -/
def Editor.cursor_blink (now : Nat) (e : Editor) : Editor :=
  { e with cursor_visible :=
      match e.start_time with
      | none => false
      | some start_time =>
        decide (((now - start_time) / e.blink_period) % 2 = 0) }

/-- C7: after `cursor_reset` the period is 500 ms and the cursor is visible
immediately; a subsequent `cursor_blink` computes visibility as
`(elapsed / period) % 2 == 0`, so it alternates every 500 ms of elapsed
time; `cursor_blink` touches no timer state, and after `disable_blink` the
timer is cleared and every subsequent `cursor_blink` reports hidden. -/
theorem cursor_blink_determinism (e : Editor) (t now : Nat) :
    (Editor.cursor_reset t e).blink_period = 500 ∧
    (Editor.cursor_reset t e).cursor_visible = true ∧
    (Editor.cursor_reset t e).start_time = some t ∧
    (Editor.cursor_blink now (Editor.cursor_reset t e)).cursor_visible =
      decide ((now - t) / 500 % 2 = 0) ∧
    (∀ k r, r < 500 →
      (Editor.cursor_blink (t + (500 * k + r))
        (Editor.cursor_reset t e)).cursor_visible = decide (k % 2 = 0)) ∧
    (Editor.cursor_blink now e).start_time = e.start_time ∧
    (Editor.cursor_blink now e).blink_period = e.blink_period ∧
    (Editor.disable_blink e).start_time = none ∧
    (Editor.cursor_blink now (Editor.disable_blink e)).cursor_visible =
      false := by
  refine ⟨rfl, rfl, rfl, rfl, ?_, rfl, rfl, rfl, rfl⟩
  intro k r hr
  simp only [Editor.cursor_blink, Editor.cursor_reset, Nat.add_sub_cancel_left]
  have : (500 * k + r) / 500 = k := by
    rw [Nat.mul_add_div (by omega), Nat.div_eq_of_lt hr]
    omega
  rw [this]

/-- Witness for `cursor_blink_determinism`: from a reset at time 0, the
cursor is hidden during the second half-period (elapsed 700 ms) and visible
during the third (elapsed 1200 ms). -/
theorem cursor_blink_determinism_witness :
    (Editor.cursor_blink 700
      (Editor.cursor_reset 0 (Editor.new []))).cursor_visible = false ∧
    (Editor.cursor_blink 1200
      (Editor.cursor_reset 0 (Editor.new []))).cursor_visible = true ∧
    (Editor.cursor_blink 700
      (Editor.disable_blink (Editor.new []))).cursor_visible = false := by
  have h1 := (cursor_blink_determinism (Editor.new []) 0 700).2.2.2.2.1
    1 200 (by decide)
  have h2 := (cursor_blink_determinism (Editor.new []) 0 1200).2.2.2.2.1
    2 200 (by decide)
  have h3 := (cursor_blink_determinism (Editor.new []) 0 700).2.2.2.2.2.2.2.2
  exact ⟨by simpa using h1, by simpa using h2, h3⟩

/-- The states of the demo `Editor` reachable through its public operations.
`on_key_down` (`demo/src/text.rs:160`) calls `cursor_reset` first and then
drives editing operations, which only change the text; `editor_mut`,
`handle_accesskit_action_request`, `draw` and `accessibility` never touch
the timer fields, so for the modelled fields they are text replacement at
most. -/
inductive Reachable : Editor → Prop
  | new (text : List Char) : Reachable (Editor.new text)
  | cursor_reset (t : Nat) {e : Editor} :
      Reachable e → Reachable (Editor.cursor_reset t e)
  | disable_blink {e : Editor} :
      Reachable e → Reachable (Editor.disable_blink e)
  | cursor_blink (now : Nat) {e : Editor} :
      Reachable e → Reachable (Editor.cursor_blink now e)
  | on_key_down (t : Nat) (s : List Char) {e : Editor} :
      Reachable e → Reachable { Editor.cursor_reset t e with raw_text := s }
  | edit_text (s : List Char) {e : Editor} :
      Reachable e → Reachable { e with raw_text := s }

/-- C10: in every reachable editor state, `start_time` is `Some` only if
`blink_period` is the nonzero 500 ms installed by `cursor_reset`; hence the
`blink_period` divisor used by `next_blink_time` and `cursor_blink` is never
zero in a state whose timer is running (`Editor::new`'s default zero period
is never used as a divisor because `start_time` is then `None`). -/
theorem blink_period_nonzero_invariant (e : Editor) (h : Reachable e) :
    ∀ st, e.start_time = some st →
      e.blink_period = 500 ∧ 0 < e.blink_period := by
  induction h with
  | new text => intro st hst; simp [Editor.new] at hst
  | cursor_reset t _ _ => intro st _; exact ⟨rfl, by norm_num [Editor.cursor_reset]⟩
  | disable_blink _ _ => intro st hst; simp [Editor.disable_blink] at hst
  | cursor_blink now _ ih =>
    intro st hst
    exact ih st hst
  | on_key_down t s _ _ => intro st _; exact ⟨rfl, by norm_num [Editor.cursor_reset]⟩
  | edit_text s _ ih => intro st hst; exact ih st hst

/-- Witness for `blink_period_nonzero_invariant` at the reachable state
`cursor_reset 3 (new "")`, whose timer is running. -/
theorem blink_period_nonzero_invariant_witness :
    (Editor.cursor_reset 3 (Editor.new [])).blink_period = 500 ∧
      0 < (Editor.cursor_reset 3 (Editor.new [])).blink_period :=
  blink_period_nonzero_invariant (Editor.cursor_reset 3 (Editor.new []))
    (Reachable.cursor_reset 3 (Reachable.new [])) 3 rfl

/-! ## Accessibility action dispatch (`demo/src/text.rs:285`)

The `accesskit` request types are modelled structurally: an action kind, and
optional action data whose `SetTextSelection` variant carries a text
selection.  `driver().select_from_accesskit` belongs to the external
`parley` crate, so it is an arbitrary state transformer parameter over an
arbitrary editor-state type `E`. -/

structure TextPosition where
  node : Nat
  character_index : Nat
  deriving DecidableEq

structure TextSelection where
  anchor : TextPosition
  focus : TextPosition
  deriving DecidableEq

/-- A representative subset of `accesskit::Action` kinds. -/
inductive AccessAction
  | click
  | focus
  | blur
  | scrollIntoView
  | setValue
  | setTextSelection
  deriving DecidableEq

/-- A representative subset of `accesskit::ActionData` variants. -/
inductive AccessActionData
  | customAction (id : Int)
  | value (s : List Char)
  | numericValue (n : Int)
  | setTextSelection (selection : TextSelection)
  deriving DecidableEq

structure ActionRequest where
  action : AccessAction
  data : Option AccessActionData
  deriving DecidableEq

/-- Model of `Editor::handle_accesskit_action_request` (`demo/src/text.rs:285`):
only a `SetTextSelection` action whose data is `SetTextSelection` data
reaches `select_from_accesskit`. -/
def handle_accesskit_action_request {E : Type}
    (select_from_accesskit : TextSelection → E → E) (st : E)
    (req : ActionRequest) : E :=
  if req.action = AccessAction.setTextSelection then
    match req.data with
    | some (AccessActionData.setTextSelection selection) =>
      select_from_accesskit selection st
    | _ => st
  else st

/-- C9: a request whose action is not `SetTextSelection`, or whose data is
not `SetTextSelection` data, leaves the editor state entirely unchanged;
only a `SetTextSelection` request with selection data applies
`select_from_accesskit`. -/
theorem accesskit_dispatch (E : Type)
    (select_from_accesskit : TextSelection → E → E) (st : E)
    (req : ActionRequest) :
    ((req.action ≠ AccessAction.setTextSelection ∨
        ∀ selection,
          req.data ≠ some (AccessActionData.setTextSelection selection)) →
      handle_accesskit_action_request select_from_accesskit st req = st) ∧
    (∀ selection, req.action = AccessAction.setTextSelection →
      req.data = some (AccessActionData.setTextSelection selection) →
      handle_accesskit_action_request select_from_accesskit st req =
        select_from_accesskit selection st) := by
  constructor
  · intro h
    unfold handle_accesskit_action_request
    rcases h with h | h
    · rw [if_neg h]
    · split
      · split
        · rename_i sel heq
          exact absurd heq (h sel)
        · rfl
      · rfl
  · intro selection ha hd
    unfold handle_accesskit_action_request
    rw [if_pos ha, hd]

/-- Witness for `accesskit_dispatch`: over `E = Nat` with an applier that
adds the anchor node id, a `click` request leaves the state unchanged and a
`SetTextSelection` request applies the selection. -/
theorem accesskit_dispatch_witness :
    handle_accesskit_action_request
      (fun sel n => n + sel.anchor.node) 10
      { action := AccessAction.click, data := none } = 10 ∧
    handle_accesskit_action_request
      (fun sel n => n + sel.anchor.node) 10
      { action := AccessAction.setTextSelection
        data := some (AccessActionData.setTextSelection
          { anchor := { node := 5, character_index := 0 }
            focus := { node := 5, character_index := 2 } }) } = 15 := by
  constructor
  · exact (accesskit_dispatch Nat (fun sel n => n + sel.anchor.node) 10
      { action := AccessAction.click, data := none }).1
      (Or.inl (by decide))
  · have h := (accesskit_dispatch Nat (fun sel n => n + sel.anchor.node) 10
      { action := AccessAction.setTextSelection
        data := some (AccessActionData.setTextSelection
          { anchor := { node := 5, character_index := 0 }
            focus := { node := 5, character_index := 2 } }) }).2
      { anchor := { node := 5, character_index := 0 }
        focus := { node := 5, character_index := 2 } } rfl rfl
    rw [h]
    decide

/-! ## The input-connection trait (`src/ime.rs:171`)

The `InputConnection` trait's composing-text operations take `&mut self` and
return a success `bool`; an implementation is modelled as a state type `S`
with one state-and-result function per operation (the `JNIEnv`/`View`
arguments carry no state the default `commit_text` body consumes).  The
provided default body of `commit_text` (`src/ime.rs:244`) is
`self.set_composing_text(..) && self.finish_composing_text(..)`, with
Rust's short-circuiting `&&`. -/

structure InputConnection (S : Type) where
  set_composing_text : S → List Char → Int → S × Bool
  finish_composing_text : S → S × Bool

/-- The default `InputConnection::commit_text` (`src/ime.rs:244`):
`set_composing_text` runs first; `finish_composing_text` runs only if it
succeeded; the result is the conjunction. -/
def InputConnection.commit_text {S : Type} (ic : InputConnection S) (s : S)
    (text : List Char) (new_cursor_position : Int) : S × Bool :=
  let r := ic.set_composing_text s text new_cursor_position
  if r.2 then ic.finish_composing_text r.1 else (r.1, false)

/-- C1: the default `commit_text` returns `true` iff `set_composing_text`
returns `true` and `finish_composing_text`, run *after* it (on the state
`set_composing_text` produced), returns `true`; when `set_composing_text`
fails, `finish_composing_text` is not invoked at all (the resulting state is
exactly `set_composing_text`'s state). -/
theorem commit_text_spec (S : Type) (ic : InputConnection S) (s : S)
    (text : List Char) (new_cursor_position : Int) :
    ((ic.commit_text s text new_cursor_position).2 = true ↔
      (ic.set_composing_text s text new_cursor_position).2 = true ∧
        (ic.finish_composing_text
          (ic.set_composing_text s text new_cursor_position).1).2 = true) ∧
    ((ic.set_composing_text s text new_cursor_position).2 = true →
      ic.commit_text s text new_cursor_position =
        ic.finish_composing_text
          (ic.set_composing_text s text new_cursor_position).1) ∧
    ((ic.set_composing_text s text new_cursor_position).2 = false →
      ic.commit_text s text new_cursor_position =
        ((ic.set_composing_text s text new_cursor_position).1, false)) := by
  unfold InputConnection.commit_text
  refine ⟨?_, fun h => by rw [if_pos h], fun h => by simp [h]⟩
  by_cases h : (ic.set_composing_text s text new_cursor_position).2 = true
  · rw [if_pos h]
    simp [h]
  · simp only [Bool.not_eq_true] at h
    rw [h]
    simp [h]

/-- A concrete `InputConnection` over `S = Nat` for the `commit_text`
witness: `set_composing_text` succeeds iff the cursor position is
nonnegative, `finish_composing_text` always succeeds. -/
def icNat : InputConnection Nat :=
  { set_composing_text := fun s text pos =>
      (s + text.length, decide (0 ≤ pos))
    finish_composing_text := fun s => (s * 2, true) }

/-- Witness for `commit_text_spec` over `icNat`. -/
theorem commit_text_spec_witness :
    icNat.commit_text 3 [chA, chE] 1 = (10, true) ∧
      icNat.commit_text 3 [chA, chE] (-1) = (5, false) := by
  constructor
  · have h := (commit_text_spec Nat icNat 3 [chA, chE] 1).2.1 (by decide)
    rw [h]; decide
  · have h := (commit_text_spec Nat icNat 3 [chA, chE] (-1)).2.2 (by decide)
    rw [h]; decide

/-! ## The peer registry (`src/view.rs`)

`PEER_MAP` is a `Mutex<BTreeMap<jlong, Box<dyn ViewPeer>>>`; a peer is an
arbitrary type `P`.  The map is modelled as `Int → Option P`; `with_peer`'s
`map.get_mut(&id).unwrap()` panic on an absent handle is modelled as
`Option.none`.  The callback `f` receives the peer by exclusive borrow and
can mutate it and produce a result, so it is `P → P × T`. -/

/-- Model of `with_peer` (`src/view.rs:174`): lock the table, look the handle up
(`unwrap` panics when absent — `none` here), run `f` on the exclusively
borrowed peer, return `f`'s result. -/
def with_peer {P T : Type} (map : Int → Option P) (id : Int)
    (f : P → P × T) : Option ((Int → Option P) × T) :=
  match map id with
  | none => none
  | some peer =>
    let r := f peer
    some (fun j => if j = id then some r.1 else map j, r.2)

/-- C6: invoking a dispatched callback on a handle absent from the peer
table fails fatally (the `unwrap` panic, modelled as `none`) instead of
returning a typed error or default; on a present handle, `with_peer` runs
`f` on the entry and returns `f`'s result (and `f`'s updated peer is stored
back under the handle). -/
theorem with_peer_spec (P T : Type) (map : Int → Option P) (id : Int)
    (f : P → P × T) :
    (map id = none → with_peer map id f = none) ∧
    (∀ peer, map id = some peer →
      ∃ map', with_peer map id f = some (map', (f peer).2) ∧
        map' id = some (f peer).1 ∧ ∀ j, j ≠ id → map' j = map j) := by
  constructor
  · intro h
    unfold with_peer
    rw [h]
  · intro peer h
    refine ⟨fun j => if j = id then some (f peer).1 else map j, ?_, ?_, ?_⟩
    · unfold with_peer
      rw [h]
    · simp
    · intro j hj
      simp [hj]

/-- Witness for `with_peer_spec` over a one-entry table mapping handle 7 to
peer value 41. -/
theorem with_peer_spec_witness :
    (with_peer (fun j => if j = 7 then some 41 else none) 8
      (fun p : Nat => (p + 1, p)) = none) ∧
    ∃ map', with_peer (fun j => if j = 7 then some 41 else none) 7
        (fun p : Nat => (p + 1, p)) = some (map', 41) ∧
      map' 7 = some 42 ∧ ∀ j, j ≠ 7 → map' j = if j = 7 then some 41 else none := by
  constructor
  · exact (with_peer_spec Nat Nat (fun j => if j = 7 then some 41 else none) 8
      (fun p => (p + 1, p))).1 (by norm_num)
  · exact (with_peer_spec Nat Nat (fun j => if j = 7 then some 41 else none) 7
      (fun p => (p + 1, p))).2 41 (by norm_num)

/-! ## The detach path (`src/view.rs:351`)

```rust
let mut map = PEER_MAP.lock().unwrap();
let mut peer = map.remove(&peer).unwrap();
peer.on_detached_from_window(&mut env, &view);
```

The operations this function performs on the shared table, in source order,
form its event trace.  The `MutexGuard` bound to `map` is dropped at the end
of the function's scope — *after* the `on_detached_from_window` hook call —
so the unlock event comes last. -/

inductive DetachEvent
  | lock
  | unlock
  | removePeer (id : Int)
  | detachHook (id : Int)
  deriving DecidableEq

/-- Event trace of the native `on_detached_from_window` entry point
(`src/view.rs:351`) for handle `id`. -/
def on_detached_from_window (id : Int) : List DetachEvent :=
  [DetachEvent.lock, DetachEvent.removePeer id, DetachEvent.detachHook id,
    DetachEvent.unlock]

/-- Occurrences of event `e` in a trace. -/
def countEvt (e : DetachEvent) : List DetachEvent → Nat
  | [] => 0
  | x :: rest => (if x = e then 1 else 0) + countEvt e rest

/-- The table lock is held while the event at position `i` executes: more
lock than unlock events strictly precede it. -/
def lockHeldAt (t : List DetachEvent) (i : Nat) : Prop :=
  countEvt DetachEvent.unlock (t.take i) < countEvt DetachEvent.lock (t.take i)

instance (t : List DetachEvent) (i : Nat) : Decidable (lockHeldAt t i) := by
  unfold lockHeldAt
  infer_instance

/-- C4 counterexample: on the detach of handle 7 the teardown hook runs at
trace position 2, and the table lock *is* held there — the guard is released
only after the hook returns, so a hook that re-entered the table would
deadlock. -/
theorem detach_lock_held_counterexample :
    (on_detached_from_window 7)[2]? = some (DetachEvent.detachHook 7) ∧
      lockHeldAt (on_detached_from_window 7) 2 := by
  decide

/-- C4 (amended): on the host's detach event the peer is removed from the
shared table exactly once, before the final-detach hook is invoked — but
the table lock *is* held during the execution of that hook (it is released
only afterwards, as the last event of the trace). -/
theorem detach_remove_once_before_hook (id : Int) :
    countEvt (DetachEvent.removePeer id) (on_detached_from_window id) = 1 ∧
    countEvt (DetachEvent.detachHook id) (on_detached_from_window id) = 1 ∧
    (on_detached_from_window id)[1]? = some (DetachEvent.removePeer id) ∧
    (on_detached_from_window id)[2]? = some (DetachEvent.detachHook id) ∧
    lockHeldAt (on_detached_from_window id) 2 ∧
    (on_detached_from_window id)[3]? = some DetachEvent.unlock := by
  refine ⟨?_, ?_, rfl, rfl, ?_, rfl⟩
  · simp [on_detached_from_window, countEvt]
  · simp [on_detached_from_window, countEvt]
  · unfold lockHeldAt on_detached_from_window
    simp [countEvt]

/-! ## Handle allocation (`src/view.rs:171` / `register_view_peer`,
`src/view.rs:408`)

`NEXT_PEER_ID` is an `AtomicI64` starting at 0; `register_view_peer` does
`NEXT_PEER_ID.fetch_add(1, Ordering::Relaxed)` — which returns the previous
value and stores the incremented value with two's-complement *wrapping* —
and inserts the peer into `PEER_MAP` under that id.  Only the ids are
relevant here, so the table is the list of registered handles. -/

/-- Two's-complement wrapping of an integer into the `i64` range. -/
def wrapI64 (n : Int) : Int := (n + 2 ^ 63) % 2 ^ 64 - 2 ^ 63

/-- Registry state: the `NEXT_PEER_ID` counter and the handles present in
`PEER_MAP`. -/
structure RegistryState where
  next : Int
  table : List Int
  deriving DecidableEq

/-- Model of `register_view_peer` (`src/view.rs:408`): returns
`NEXT_PEER_ID.fetch_add(1, Relaxed)` (the old counter value, with the
counter advanced by wrapping increment) and inserts the id. -/
def register_view_peer (s : RegistryState) : Int × RegistryState :=
  (s.next, { next := wrapI64 (s.next + 1), table := s.next :: s.table })

/-- The registry operations a host can interleave: a registration, or the
removal done by the detach path. -/
inductive RegOp
  | register
  | remove (id : Int)
  deriving DecidableEq

/-- Run a sequence of registry operations; returns the final state and the
ids returned by the `register_view_peer` calls, in order. -/
def runOps : List RegOp → RegistryState → RegistryState × List Int
  | [], s => (s, [])
  | RegOp.register :: rest, s =>
    ((runOps rest (register_view_peer s).2).1,
      (register_view_peer s).1 :: (runOps rest (register_view_peer s).2).2)
  | RegOp.remove id :: rest, s =>
    runOps rest { s with table := s.table.erase id }

/-- Process start: `NEXT_PEER_ID = 0`, empty `PEER_MAP`. -/
def initialRegistry : RegistryState := { next := 0, table := [] }

/-- The ids issued by a sequence of operations run from process start. -/
def issuedIds (ops : List RegOp) : List Int :=
  (runOps ops initialRegistry).2

/-- Number of `register` operations in a sequence. -/
def countRegisters : List RegOp → Nat
  | [] => 0
  | RegOp.register :: rest => countRegisters rest + 1
  | RegOp.remove _ :: rest => countRegisters rest

/-- One step of the id counter. -/
def nextIdStep (n : Int) : Int := wrapI64 (n + 1)

/-- The counter value after `k` registrations starting from `c`. -/
def idAfter (c : Int) (k : Nat) : Int := nextIdStep^[k] c

theorem countRegisters_replicate (n : Nat) :
    countRegisters (List.replicate n RegOp.register) = n := by
  induction n with
  | zero => rfl
  | succ n ih => rw [List.replicate_succ, countRegisters, ih]

/-- The issued ids are the iterates of the wrapping increment from the
starting counter, one per `register`; removals do not disturb the
counter. -/
theorem runOps_issued : ∀ (ops : List RegOp) (s : RegistryState),
    (runOps ops s).2 =
      (List.range (countRegisters ops)).map (idAfter s.next) := by
  intro ops
  induction ops with
  | nil => intro s; rfl
  | cons op rest ih =>
    intro s
    cases op with
    | register =>
      rw [runOps, countRegisters, ih, List.range_succ_eq_map, List.map_cons,
        List.map_map]
      refine congrArg₂ _ rfl (List.map_congr_left fun k _ => ?_)
      show idAfter s.next (k + 1) = idAfter (wrapI64 (s.next + 1)) k
      rw [idAfter, Function.iterate_succ_apply, idAfter, nextIdStep]
    | remove id =>
      rw [runOps, countRegisters, ih]

theorem wrapI64_eq_self {n : Int} (h0 : -(2 ^ 63) ≤ n) (h1 : n < 2 ^ 63) :
    wrapI64 n = n := by
  unfold wrapI64
  rw [Int.emod_eq_of_lt (by omega) (by omega)]
  omega

theorem neg_pow63_le_coe (n : Nat) : -(2 ^ 63 : Int) ≤ (n : Int) :=
  le_trans (by norm_num) (Int.ofNat_nonneg n)

theorem idAfter_zero_eq (k : Nat) (h : k ≤ 2 ^ 63) :
    idAfter 0 k = wrapI64 (k : Int) := by
  induction k with
  | zero =>
    rw [idAfter, Function.iterate_zero_apply,
      wrapI64_eq_self (by norm_num) (by norm_num)]
    rfl
  | succ k ih =>
    have hk : (k : Int) < 2 ^ 63 := by
      have hk' : k < 2 ^ 63 := by omega
      exact_mod_cast hk'
    have hmid : idAfter 0 k = (k : Int) := by
      rw [ih (Nat.le_of_succ_le h)]
      exact wrapI64_eq_self (neg_pow63_le_coe k) hk
    rw [idAfter, Function.iterate_succ_apply', ← idAfter, hmid, nextIdStep]
    exact congrArg wrapI64 (by push_cast; ring)

set_option maxRecDepth 4000 in
theorem wrapI64_pow63 : wrapI64 ((2 ^ 63 : Nat) : Int) = -(2 ^ 63) := by
  unfold wrapI64
  omega

/-- C5 counterexample: a sequence of `2^63 + 1` registrations.  The id
issued by registration number `2^63` is `2^63 - 1`, and the very next
registration's `fetch_add` wraps the `i64` counter: it issues `-(2^63)`,
so the issued ids are neither strictly nor weakly increasing. -/
theorem register_ids_wrap_counterexample :
    (issuedIds (List.replicate (2 ^ 63 + 1) RegOp.register))[2 ^ 63 - 1]? =
      some ((2 ^ 63 - 1 : Nat) : Int) ∧
    (issuedIds (List.replicate (2 ^ 63 + 1) RegOp.register))[2 ^ 63]? =
      some (-(2 ^ 63)) ∧
    ¬ List.Pairwise (fun a b : Int => a < b)
      (issuedIds (List.replicate (2 ^ 63 + 1) RegOp.register)) ∧
    ¬ List.Pairwise (fun a b : Int => a ≤ b)
      (issuedIds (List.replicate (2 ^ 63 + 1) RegOp.register)) := by
  have hiss : issuedIds (List.replicate (2 ^ 63 + 1) RegOp.register) =
      (List.range (2 ^ 63 + 1)).map (idAfter 0) := by
    rw [issuedIds, runOps_issued, countRegisters_replicate]
    rfl
  have hv1 : idAfter 0 (2 ^ 63 - 1) = ((2 ^ 63 - 1 : Nat) : Int) := by
    rw [idAfter_zero_eq (2 ^ 63 - 1) (by omega)]
    exact wrapI64_eq_self (neg_pow63_le_coe _) (by
      have h : (2 ^ 63 - 1 : Nat) < (2 ^ 63 : Nat) := by omega
      exact_mod_cast h)
  have hv2 : idAfter 0 (2 ^ 63) = -(2 ^ 63) := by
    rw [idAfter_zero_eq (2 ^ 63) le_rfl, wrapI64_pow63]
  have hg1 : (issuedIds (List.replicate (2 ^ 63 + 1)
      RegOp.register))[2 ^ 63 - 1]? = some ((2 ^ 63 - 1 : Nat) : Int) := by
    rw [hiss, List.getElem?_map, List.getElem?_range (by omega),
      Option.map_some', hv1]
  have hg2 : (issuedIds (List.replicate (2 ^ 63 + 1)
      RegOp.register))[2 ^ 63]? = some (-(2 ^ 63)) := by
    rw [hiss, List.getElem?_map, List.getElem?_range (by omega),
      Option.map_some', hv2]
  have hlen : (issuedIds (List.replicate (2 ^ 63 + 1)
      RegOp.register)).length = 2 ^ 63 + 1 := by
    rw [hiss, List.length_map, List.length_range]
  refine ⟨hg1, hg2, ?_, ?_⟩
  · intro hp
    rw [List.pairwise_iff_getElem] at hp
    have h := hp (2 ^ 63 - 1) (2 ^ 63) (by omega) (by omega) (by omega)
    rw [List.getElem?_eq_getElem (by omega)] at hg1 hg2
    rw [Option.some_inj.mp hg1, Option.some_inj.mp hg2] at h
    have hc : ((2 ^ 63 - 1 : Nat) : Int) ≥ 0 := by positivity
    omega
  · intro hp
    rw [List.pairwise_iff_getElem] at hp
    have h := hp (2 ^ 63 - 1) (2 ^ 63) (by omega) (by omega) (by omega)
    rw [List.getElem?_eq_getElem (by omega)] at hg1 hg2
    rw [Option.some_inj.mp hg1, Option.some_inj.mp hg2] at h
    have hc : ((2 ^ 63 - 1 : Nat) : Int) ≥ 0 := by positivity
    omega

/-- C5 (amended): as long as at most `2^63` registrations occur (so the
`i64` counter never wraps), `register_view_peer` never returns an id equal
to a previously issued one — even across removals — and the issued ids are
strictly increasing. -/
theorem register_ids_strictly_increasing (ops : List RegOp)
    (h : countRegisters ops ≤ 2 ^ 63) :
    List.Pairwise (fun a b : Int => a < b) (issuedIds ops) ∧
      (issuedIds ops).Nodup := by
  have hiss : issuedIds ops =
      (List.range (countRegisters ops)).map (idAfter 0) := by
    rw [issuedIds, runOps_issued]
    rfl
  have hcast : issuedIds ops =
      List.map (fun k : Nat => (k : Int)) (List.range (countRegisters ops)) := by
    rw [hiss]
    refine List.map_congr_left fun k hk => ?_
    rw [List.mem_range] at hk
    have hk63 : k < 2 ^ 63 := by omega
    rw [idAfter_zero_eq k (by omega)]
    exact wrapI64_eq_self (neg_pow63_le_coe k) (by exact_mod_cast hk63)
  have hpw : List.Pairwise (fun a b : Int => a < b) (issuedIds ops) := by
    rw [hcast, List.pairwise_map]
    exact (List.pairwise_lt_range _).imp fun hab => by exact_mod_cast hab
  exact ⟨hpw, hpw.imp fun hab => ne_of_lt hab⟩

/-- Witness for `register_ids_strictly_increasing`: register, detach handle
0, register again — the ids 0 and 1 are distinct and increasing. -/
theorem register_ids_strictly_increasing_witness :
    countRegisters [RegOp.register, RegOp.remove 0, RegOp.register] ≤ 2 ^ 63 ∧
    List.Pairwise (fun a b : Int => a < b)
      (issuedIds [RegOp.register, RegOp.remove 0, RegOp.register]) ∧
    (issuedIds [RegOp.register, RegOp.remove 0, RegOp.register]).Nodup :=
  ⟨by decide,
    (register_ids_strictly_increasing
      [RegOp.register, RegOp.remove 0, RegOp.register] (by decide)).1,
    (register_ids_strictly_increasing
      [RegOp.register, RegOp.remove 0, RegOp.register] (by decide)).2⟩

end AndroidView
